import Mathlib

/-!
Shallow embedding of the LemmyAI/gameserver repository, covering the room
registry (internal/room/room.go), the authoritative game state
(internal/game, the State/Engine code), delta tracking
(internal/game/delta.go), the WebRTC SFU track bookkeeping
(internal/webrtc/webrtc.go) and the gateway join_room handler.

Go float32 values are modelled as rationals; Go maps keyed by strings are
modelled as lists of entries looked up by key (insertion replaces the
binding in place, mirroring map assignment); crypto randomness and uuid
generation are modelled as explicit parameters.
-/

set_option maxHeartbeats 1000000

namespace GameServer

/-! ## Room registry (internal/room/room.go) -/

/-- A member of a registry room (room.go Player, sans timestamps). -/
structure RPlayer where
  id : String
  name : String
  isHost : Bool
deriving DecidableEq, Repr

/-- A registry room (room.go Room, sans timestamps and config). -/
structure Room where
  id : String
  players : List RPlayer
  hostID : String
  maxPlayer : Nat
deriving DecidableEq, Repr

/-- Room-package error values (errors.go). -/
inductive RoomErr where
  | roomNotFound
  | roomFull
deriving DecidableEq, Repr

/-- Error strings as in errors.go. -/
def RoomErr.message : RoomErr → String
  | .roomNotFound => "room not found"
  | .roomFull => "room is full"

/-- Room.Join: the capacity check runs first, then the already-member
check, then the newcomer is appended (first member becomes host). -/
def Room.join (room : Room) (playerID playerName : String) :
    Except RoomErr (Room × RPlayer) :=
  if room.players.length ≥ room.maxPlayer then
    .error .roomFull
  else
    match room.players.find? (fun p => p.id = playerID) with
    | some p => .ok (room, p)
    | none =>
      let isHost := room.players.length = 0
      let hostID := if isHost then playerID else room.hostID
      let player : RPlayer := { id := playerID, name := playerName, isHost := isHost }
      .ok ({ room with players := room.players ++ [player], hostID := hostID }, player)

/-- Room.Leave: delete the player; if the departed player was the host and
members remain, promote the first remaining member.  The room.go code
ranges over a Go map to pick the replacement; the embedding picks the head
of the remaining list.  When the room becomes empty, hostID is untouched. -/
def Room.leave (room : Room) (playerID : String) : Room :=
  let ps := room.players.filter (fun p => ¬ p.id = playerID)
  if playerID = room.hostID then
    match ps with
    | [] => { room with players := [] }
    | q :: rest => { room with players := { q with isHost := true } :: rest, hostID := q.id }
  else
    { room with players := ps }

/-- The registry: rooms keyed by ID plus the configured MaxPlayers. -/
structure Registry where
  rooms : List Room
  maxPlayers : Nat
deriving DecidableEq, Repr

/-- A registry with no rooms. -/
def emptyRegistry (maxPlayers : Nat) : Registry :=
  { rooms := [], maxPlayers := maxPlayers }

/-- Go map assignment on a list of rooms keyed by ID: replace in place or
append. -/
def insertRoom (r : Room) : List Room → List Room
  | [] => [r]
  | x :: xs => if x.id = r.id then r :: xs else x :: insertRoom r xs

/-- Registry.Create with the generated random ID passed explicitly:
build a fresh empty room and assign it into the map unconditionally. -/
def Registry.create (reg : Registry) (genID : String) : Registry × Room :=
  let room : Room := { id := genID, players := [], hostID := "", maxPlayer := reg.maxPlayers }
  ({ reg with rooms := insertRoom room reg.rooms }, room)

/-- Registry.Join: look the room up, then delegate to Room.Join. -/
def Registry.joinR (reg : Registry) (roomID playerID playerName : String) :
    Registry × Except RoomErr RPlayer :=
  match reg.rooms.find? (fun r => r.id = roomID) with
  | none => (reg, .error .roomNotFound)
  | some room =>
    match room.join playerID playerName with
    | .error e => (reg, .error e)
    | .ok (room2, p) =>
      ({ reg with rooms := reg.rooms.map (fun r => if r.id = roomID then room2 else r) }, .ok p)

/-- Registry.Get followed by Room.Leave, as the gateway does. -/
def Registry.leaveR (reg : Registry) (roomID playerID : String) : Registry :=
  match reg.rooms.find? (fun r => r.id = roomID) with
  | none => reg
  | some room =>
    let room2 := room.leave playerID
    { reg with rooms := reg.rooms.map (fun r => if r.id = roomID then room2 else r) }

/-- One registry operation: Create (with its random ID made explicit),
Join, or Leave. -/
inductive RegOp where
  | create (genID : String)
  | join (roomID playerID playerName : String)
  | leave (roomID playerID : String)

/-- Run one registry operation. -/
def runRegOp (reg : Registry) : RegOp → Registry
  | .create genID => (reg.create genID).1
  | .join roomID playerID playerName => (reg.joinR roomID playerID playerName).1
  | .leave roomID playerID => reg.leaveR roomID playerID

/-- Run a sequence of registry operations. -/
def runReg (reg : Registry) (ops : List RegOp) : Registry :=
  ops.foldl runRegOp reg

/-- hex.EncodeToString of one byte (lowercase hex, two characters). -/
def hexByte (b : Nat) : List Char :=
  [Nat.digitChar (b / 16), Nat.digitChar (b % 16)]

/-- generateID: hex encoding of the three random bytes, made explicit. -/
def generateID (b0 b1 b2 : Nat) : String :=
  String.mk (hexByte b0 ++ hexByte b1 ++ hexByte b2)

/-- The sixteen lowercase hexadecimal characters. -/
def hexChars : List Char :=
  String.toList "0123456789abcdef"

/-! ## Game state (internal/game State, with float32 modelled as rational) -/

/-- 2D vector over the rationals (game Vec2, float32 in Go). -/
structure Vec2 where
  x : ℚ
  y : ℚ
deriving DecidableEq, Repr

/-- Game engine configuration (game Config). -/
structure GConfig where
  tickRate : Nat
  maxPlayers : Nat
  playerSpeed : ℚ
  worldWidth : ℚ
  worldHeight : ℚ
deriving DecidableEq, Repr

/-- One player input (game Input, sans timestamp and action booleans). -/
structure GInput where
  sequence : Nat
  movement : Vec2
deriving DecidableEq, Repr

/-- A connected player (game Player, sans wall-clock fields and address). -/
structure GPlayer where
  id : String
  name : String
  position : Vec2
  velocity : Vec2
  lastInput : Nat
  inputQueue : List GInput
deriving DecidableEq, Repr

/-- The authoritative game state (game State, sans tick counter). -/
structure GState where
  players : List GPlayer
  config : GConfig
deriving DecidableEq, Repr

/-- NewState: no players. -/
def newGState (config : GConfig) : GState :=
  { players := [], config := config }

/-- Go map assignment on the player list keyed by ID. -/
def insertGPlayer (p : GPlayer) : List GPlayer → List GPlayer
  | [] => [p]
  | x :: xs => if x.id = p.id then p :: xs else x :: insertGPlayer p xs

/-- State.AddPlayer with the generated uuid passed explicitly: reject when
at MaxPlayers, otherwise spawn at the world centre with empty queue. -/
def GState.addPlayer (s : GState) (pid name : String) : GState × Option GPlayer :=
  if s.players.length ≥ s.config.maxPlayers then
    (s, none)
  else
    let p : GPlayer :=
      { id := pid, name := name,
        position := ⟨s.config.worldWidth / 2, s.config.worldHeight / 2⟩,
        velocity := ⟨0, 0⟩, lastInput := 0, inputQueue := [] }
    ({ s with players := insertGPlayer p s.players }, some p)

/-- State.ApplyInput: unknown player or a sequence not strictly above
LastInput returns false and changes nothing; otherwise the input is
appended to the player's queue. -/
def GState.applyInput (s : GState) (pid : String) (inp : GInput) : GState × Bool :=
  match s.players.find? (fun p => p.id = pid) with
  | none => (s, false)
  | some p =>
    if inp.sequence ≤ p.lastInput then
      (s, false)
    else
      ({ s with players :=
          s.players.map (fun q =>
            if q.id = pid then { q with inputQueue := q.inputQueue ++ [inp] } else q) },
        true)

/-- The two sequential clamp conditionals of ProcessInputs for one axis:
first raise to 0, then lower to the bound. -/
def clampAxis (hi v : ℚ) : ℚ :=
  let v1 := if v < 0 then 0 else v
  if v1 > hi then hi else v1

/-- The body of the ProcessInputs loop for a single queued input:
velocity from movement, position integration with dt = 1/tickRate,
world clamp, LastInput update. -/
def applyOneInput (cfg : GConfig) (p : GPlayer) (inp : GInput) : GPlayer :=
  let dt : ℚ := 1 / (cfg.tickRate : ℚ)
  let vx := inp.movement.x * cfg.playerSpeed
  let vy := inp.movement.y * cfg.playerSpeed
  let px := clampAxis cfg.worldWidth (p.position.x + vx * dt)
  let py := clampAxis cfg.worldHeight (p.position.y + vy * dt)
  { p with velocity := ⟨vx, vy⟩, position := ⟨px, py⟩, lastInput := inp.sequence }

/-- Drain one player's queue in enqueue order, then clear it. -/
def processPlayer (cfg : GConfig) (p : GPlayer) : GPlayer :=
  let p2 := p.inputQueue.foldl (applyOneInput cfg) p
  { p2 with inputQueue := [] }

/-- State.ProcessInputs over every player. -/
def GState.processInputs (s : GState) : GState :=
  { s with players := s.players.map (processPlayer s.config) }

/-- One worker operation: AddPlayer (uuid explicit), ApplyInput, or
ProcessInputs. -/
inductive GOp where
  | add (pid name : String)
  | putInput (pid : String) (inp : GInput)
  | process

/-- Run one worker operation. -/
def runGOp (s : GState) : GOp → GState
  | .add pid name => (s.addPlayer pid name).1
  | .putInput pid inp => (s.applyInput pid inp).1
  | .process => s.processInputs

/-- Run a sequence of worker operations. -/
def runG (s : GState) (ops : List GOp) : GState :=
  ops.foldl runGOp s

/-- An ApplyInput/ProcessInputs-only operation (no player addition). -/
inductive IOp where
  | putInput (pid : String) (inp : GInput)
  | process

/-- Run one input-layer operation. -/
def runIOp (s : GState) : IOp → GState
  | .putInput pid inp => (s.applyInput pid inp).1
  | .process => s.processInputs

/-- Run a sequence of input-layer operations. -/
def runI (s : GState) (ops : List IOp) : GState :=
  ops.foldl runIOp s

/-- Both position components within the world rectangle. -/
def inBounds (cfg : GConfig) (p : GPlayer) : Prop :=
  0 ≤ p.position.x ∧ p.position.x ≤ cfg.worldWidth ∧
  0 ≤ p.position.y ∧ p.position.y ≤ cfg.worldHeight

/-- Every queued input is strictly newer than the player's LastInput:
the invariant ApplyInput maintains on each queue. -/
def queueInv (s : GState) : Prop :=
  ∀ p ∈ s.players, ∀ inp ∈ p.inputQueue, p.lastInput < inp.sequence

/-! ## Delta tracking (internal/game/delta.go) -/

/-- A tracked player snapshot (delta.go playerSnapshot, rotation omitted
as it is the constant 0 in the code). -/
structure PSnap where
  x : ℚ
  y : ℚ
  vx : ℚ
  vy : ℚ
deriving DecidableEq, Repr

/-- The snapshot taken of a player inside ComputeDelta. -/
def snapOf (p : GPlayer) : PSnap :=
  ⟨p.position.x, p.position.y, p.velocity.x, p.velocity.y⟩

/-- The abs helper of delta.go. -/
def absQ (v : ℚ) : ℚ :=
  if v < 0 then -v else v

/-- hasChanged: any coordinate moved by more than the 0.1 epsilon. -/
def hasChanged (old cur : PSnap) : Bool :=
  (absQ (cur.x - old.x) > 1/10 || absQ (cur.y - old.y) > 1/10) ||
  (absQ (cur.vx - old.vx) > 1/10 || absQ (cur.vy - old.vy) > 1/10)

/-- The delta tracker: last sent snapshot per player ID. -/
structure DTracker where
  lastStates : List (String × PSnap)
deriving DecidableEq, Repr

/-- Lookup in a snapshot map. -/
def lookupSnap (pid : String) : List (String × PSnap) → Option PSnap
  | [] => none
  | e :: es => if e.1 = pid then some e.2 else lookupSnap pid es

/-- Go map assignment on a snapshot map. -/
def insertSnap (pid : String) (sn : PSnap) : List (String × PSnap) → List (String × PSnap)
  | [] => [(pid, sn)]
  | e :: es => if e.1 = pid then (pid, sn) :: es else e :: insertSnap pid sn es

/-- The changed-players loop body of ComputeDelta: emit the player and
store the fresh snapshot when it is a full sync, an untracked player, or
a meaningfully changed one. -/
def deltaStep (fullSync : Bool) (acc : List String × List (String × PSnap)) (p : GPlayer) :
    List String × List (String × PSnap) :=
  let sn := snapOf p
  match lookupSnap p.id acc.2 with
  | some last =>
    if fullSync || hasChanged last sn then
      (acc.1 ++ [p.id], insertSnap p.id sn acc.2)
    else
      acc
  | none => (acc.1 ++ [p.id], insertSnap p.id sn acc.2)

/-- DeltaTracker.ComputeDelta: first drop (and report as removed) tracked
IDs that are no longer present, then collect changed players.  Returns
(changed IDs, removed IDs, updated tracker). -/
def computeDelta (d : DTracker) (players : List GPlayer) (fullSync : Bool) :
    List String × List String × DTracker :=
  let currentIDs := players.map (fun p => p.id)
  let removed := (d.lastStates.filter (fun e => ¬ e.1 ∈ currentIDs)).map Prod.fst
  let kept := d.lastStates.filter (fun e => e.1 ∈ currentIDs)
  let res := players.foldl (deltaStep fullSync) ([], kept)
  (res.1, removed, ⟨res.2⟩)

/-- Engine-side state: game state plus the delta tracker. -/
structure EngineSt where
  state : GState
  tracker : DTracker
deriving DecidableEq, Repr

/-- Engine.RemovePlayer: no-op for an unknown ID; otherwise remove the
player from the state and delete the delta-tracker entry. -/
def EngineSt.removePlayer (e : EngineSt) (pid : String) : EngineSt :=
  match e.state.players.find? (fun p => p.id = pid) with
  | none => e
  | some _ =>
    { state := { e.state with players := e.state.players.filter (fun p => ¬ p.id = pid) },
      tracker := ⟨e.tracker.lastStates.filter (fun en => ¬ en.1 = pid)⟩ }

/-! ## SFU track bookkeeping (internal/webrtc/webrtc.go, SFU manager) -/

/-- A media kind. -/
inductive MKind where
  | audio
  | video
deriving DecidableEq, Repr

/-- A local track as held by a sender: what matters for forwarding is the
player the media originated from and its kind. -/
structure STrack where
  source : String
  kind : MKind
deriving DecidableEq, Repr

/-- The SFU manager: per-player sender track lists, plus the stored local
audio and video tracks keyed by source player. -/
structure Sfu where
  peerConns : List (String × List STrack)
  audioSrcs : List String
  videoSrcs : List String
deriving DecidableEq, Repr

/-- NewManager: nothing registered. -/
def newSfu : Sfu :=
  { peerConns := [], audioSrcs := [], videoSrcs := [] }

/-- Lookup of a peer connection's sender list. -/
def lookupPC (pid : String) : List (String × List STrack) → Option (List STrack)
  | [] => none
  | e :: es => if e.1 = pid then some e.2 else lookupPC pid es

/-- CreatePeerConnection: idempotent; a fresh connection has no senders. -/
def Sfu.createPC (m : Sfu) (pid : String) : Sfu :=
  match lookupPC pid m.peerConns with
  | some _ => m
  | none => { m with peerConns := m.peerConns ++ [(pid, [])] }

/-- Append tracks to one player's sender list. -/
def addTracks (pid : String) (ts : List STrack) :
    List (String × List STrack) → List (String × List STrack)
  | [] => []
  | e :: es =>
    if e.1 = pid then (e.1, e.2 ++ ts) :: es else e :: addTracks pid ts es

/-- Manager.HandleOffer: ensure the peer connection exists, then add
every stored audio and video track whose source player differs from the
offering player. -/
def Sfu.handleOffer (m : Sfu) (pid : String) : Sfu :=
  let m1 := m.createPC pid
  let toAdd :=
    (m1.audioSrcs.filter (fun src => ¬ src = pid)).map (fun src => STrack.mk src .audio) ++
    (m1.videoSrcs.filter (fun src => ¬ src = pid)).map (fun src => STrack.mk src .video)
  { m1 with peerConns := addTracks pid toAdd m1.peerConns }

/-- Manager.forwardTrackToOthers: store the new local track under its
source player, then add it to every peer connection other than the
source's own. -/
def Sfu.forwardTrack (m : Sfu) (src : String) (kind : MKind) : Sfu :=
  let stored :=
    match kind with
    | .audio => { m with audioSrcs := src :: m.audioSrcs.filter (fun s => ¬ s = src) }
    | .video => { m with videoSrcs := src :: m.videoSrcs.filter (fun s => ¬ s = src) }
  { stored with peerConns :=
      stored.peerConns.map (fun e =>
        if e.1 = src then e else (e.1, e.2 ++ [STrack.mk src kind])) }

/-- Manager.RemovePeerConnection: drop the connection and the stored
tracks of that player. -/
def Sfu.removePC (m : Sfu) (pid : String) : Sfu :=
  { peerConns := m.peerConns.filter (fun e => ¬ e.1 = pid),
    audioSrcs := m.audioSrcs.filter (fun s => ¬ s = pid),
    videoSrcs := m.videoSrcs.filter (fun s => ¬ s = pid) }

/-- One SFU operation. -/
inductive SfuOp where
  | offer (pid : String)
  | createPC (pid : String)
  | forward (src : String) (kind : MKind)
  | removePC (pid : String)

/-- Run one SFU operation. -/
def runSfuOp (m : Sfu) : SfuOp → Sfu
  | .offer pid => m.handleOffer pid
  | .createPC pid => m.createPC pid
  | .forward src kind => m.forwardTrack src kind
  | .removePC pid => m.removePC pid

/-- Run a sequence of SFU operations. -/
def runSfu (m : Sfu) (ops : List SfuOp) : Sfu :=
  ops.foldl runSfuOp m

/-! ## Gateway join_room handling (webbridge handleWS, join_room case) -/

/-- A message the gateway writes back over the control channel during
join_room handling. -/
inductive BridgeOut where
  | errorMsg (err : String)
  | roomJoined (roomID playerID : String) (isHost : Bool)
  | playerJoinedNote (roomID playerID name : String)
deriving DecidableEq, Repr

/-- The per-session state the join_room handler touches. -/
structure Client where
  playerID : String
  roomID : String
  name : String
deriving DecidableEq, Repr

/-- The join_room case of handleWS with the worker-spawn outcome made
explicit: Registry.Join first (errors reported verbatim), then the
session is bound to the room, then the worker spawn; a failed spawn
reports the fixed error string and stops, with no Leave and with the
session still bound. -/
def handleJoinRoom (reg : Registry) (c : Client) (spawnOK : Bool) (roomID rawName : String) :
    Registry × Client × List BridgeOut :=
  let pname := if rawName = "" then "Player" else rawName
  match reg.joinR roomID c.playerID pname with
  | (reg2, .error e) => (reg2, c, [.errorMsg e.message])
  | (reg2, .ok player) =>
    let c2 := { c with roomID := roomID, name := pname }
    if spawnOK then
      (reg2, c2, [.roomJoined roomID c.playerID player.isHost,
                  .playerJoinedNote roomID c.playerID pname])
    else
      (reg2, c2, [.errorMsg "failed to start game server"])

/-! ## Generic helper lemmas -/

/-- Two members of a list with distinct keys that share a key are equal. -/
theorem nodup_key_inj {α : Type} (key : α → String) {l : List α}
    (h : (l.map key).Nodup) {a b : α} (ha : a ∈ l) (hb : b ∈ l)
    (hk : key a = key b) : a = b := by
  induction l with
  | nil => cases ha
  | cons x xs ih =>
    simp only [List.map_cons, List.nodup_cons] at h
    rcases List.mem_cons.mp ha with rfl | ha2
    · rcases List.mem_cons.mp hb with rfl | hb2
      · rfl
      · exact absurd (hk ▸ List.mem_map_of_mem key hb2) h.1
    · rcases List.mem_cons.mp hb with rfl | hb2
      · exact absurd (hk ▸ List.mem_map_of_mem key ha2) h.1
      · exact ih h.2 ha2 hb2

/-! ## C10 theorem -/

/-- C10: for a playerID absent from the state, ApplyInput returns false
and the state is entirely unchanged (nothing queued, nothing updated), so
a false return does not by itself distinguish an unknown player from a
stale input. -/
theorem applyInput_unknown_false (s : GState) (pid : String) (inp : GInput)
    (h : s.players.find? (fun p => p.id = pid) = none) :
    s.applyInput pid inp = (s, false) := by
  simp [GState.applyInput, h]

/-- Witness for C10 at a concrete empty state. -/
theorem applyInput_unknown_false_witness :
    (newGState ⟨60, 100, 100, 1000, 1000⟩).applyInput "p" ⟨1, ⟨0, 0⟩⟩ =
      (newGState ⟨60, 100, 100, 1000, 1000⟩, false) :=
  applyInput_unknown_false _ _ _ rfl

/-! ## C6 counterexample and amended theorem -/

/-- C6 counterexample: in a room at MaxPlayers (capacity 1, member p),
a re-join by the already-present member p fails with room-full instead
of returning the existing entry, because Room.Join checks capacity before
membership.  This falsifies the claim that a second Join of an existing
member does not fail at any membership size including a full room. -/
theorem rejoin_full_room_fails :
    Room.join { id := "ab", players := [{ id := "p", name := "n", isHost := true }],
                hostID := "p", maxPlayer := 1 } "p" "x" = .error .roomFull ∧
    ({ id := "ab", players := [{ id := "p", name := "n", isHost := true }],
       hostID := "p", maxPlayer := 1 } : Room).players.find?
        (fun q => q.id = "p") = some { id := "p", name := "n", isHost := true } := by
  constructor
  · rfl
  · rfl

/-- C6 amended: a re-join of an existing member is idempotent (returns the
existing entry, no duplicate) provided membership is strictly below
MaxPlayers; once membership has reached MaxPlayers, any Join — a re-join
of an existing member included — fails with room-full; Registry.Join on
an unknown room ID fails with room-not-found. -/
theorem rejoin_idempotent_below_capacity (room : Room) (pid name2 : String)
    (entry : RPlayer) (hmem : room.players.find? (fun p => p.id = pid) = some entry) :
    (room.players.length < room.maxPlayer → room.join pid name2 = .ok (room, entry)) ∧
    (room.maxPlayer ≤ room.players.length → room.join pid name2 = .error .roomFull) ∧
    (∀ (reg : Registry) (rid pn : String), reg.rooms.find? (fun r => r.id = rid) = none →
      reg.joinR rid pid pn = (reg, .error .roomNotFound)) := by
  refine ⟨fun hlt => ?_, fun hge => ?_, fun reg rid pn hnone => ?_⟩
  · simp [Room.join, hmem, Nat.not_le_of_lt hlt]
  · simp [Room.join, hge]
  · simp [Registry.joinR, hnone]

/-- Witness for C6 amended at a concrete two-slot room. -/
theorem rejoin_idempotent_below_capacity_witness :
    Room.join { id := "ab", players := [{ id := "p", name := "n", isHost := true }],
                hostID := "p", maxPlayer := 2 } "p" "x" =
      .ok ({ id := "ab", players := [{ id := "p", name := "n", isHost := true }],
             hostID := "p", maxPlayer := 2 }, { id := "p", name := "n", isHost := true }) :=
  (rejoin_idempotent_below_capacity
    { id := "ab", players := [{ id := "p", name := "n", isHost := true }],
      hostID := "p", maxPlayer := 2 } "p" "x"
    { id := "p", name := "n", isHost := true } rfl).1 (by decide)

/-! ## C9 counterexample and amended theorem -/

/-- C9 counterexample: Registry.Create performs no collision check, so a
generated ID equal to an existing room's ID silently replaces that room:
the occupied room "aaaaaa" is gone after Create, falsifying the claim
that colliding IDs are rejected and retried so that Create never replaces
an existing room. -/
theorem create_collision_replaces_room :
    (Registry.create
        { rooms := [{ id := "aaaaaa", players := [{ id := "p", name := "n", isHost := true }],
                      hostID := "p", maxPlayer := 8 }], maxPlayers := 8 }
        "aaaaaa").1.rooms =
      [{ id := "aaaaaa", players := [], hostID := "", maxPlayer := 8 }] ∧
    ({ id := "aaaaaa", players := [{ id := "p", name := "n", isHost := true }],
       hostID := "p", maxPlayer := 8 } : Room) ∉
      (Registry.create
        { rooms := [{ id := "aaaaaa", players := [{ id := "p", name := "n", isHost := true }],
                      hostID := "p", maxPlayer := 8 }], maxPlayers := 8 }
        "aaaaaa").1.rooms := by
  constructor
  · rfl
  · decide

/-- digitChar sends 0..15 to lowercase hexadecimal characters. -/
theorem digitChar_mem_hexChars : ∀ n < 16, Nat.digitChar n ∈ hexChars := by decide

/-- With no colliding key, map assignment is an append. -/
theorem insertRoom_of_not_mem (x : Room) (l : List Room)
    (h : ∀ r ∈ l, r.id ≠ x.id) : insertRoom x l = l ++ [x] := by
  induction l with
  | nil => rfl
  | cons y ys ih =>
    have hy := h y (List.mem_cons_self y ys)
    simp only [insertRoom]
    rw [if_neg hy, ih (fun r hr => h r (List.mem_cons_of_mem y hr))]
    rfl

/-- C9 amended: generateID produces 6 lowercase hexadecimal characters
from the three random bytes, but Create performs no collision check: when
the generated ID is unused the registry keeps every existing room and
appends the fresh empty room, while a colliding ID replaces the existing
room (see the counterexample). -/
theorem create_id_hex_no_collision_check (b0 b1 b2 : Nat)
    (h0 : b0 < 256) (h1 : b1 < 256) (h2 : b2 < 256) :
    ((generateID b0 b1 b2).length = 6 ∧
      ∀ ch ∈ (generateID b0 b1 b2).data, ch ∈ hexChars) ∧
    ∀ (reg : Registry) (genID : String), (∀ r ∈ reg.rooms, r.id ≠ genID) →
      (reg.create genID).1.rooms =
        reg.rooms ++ [{ id := genID, players := [], hostID := "",
                        maxPlayer := reg.maxPlayers }] := by
  constructor
  · constructor
    · rfl
    · intro ch hch
      have hdiv : ∀ b : Nat, b < 256 → b / 16 < 16 := by
        intro b hb
        exact Nat.div_lt_of_lt_mul (by omega)
      have hmod : ∀ b : Nat, b % 16 < 16 := fun b => Nat.mod_lt _ (by omega)
      have hdata : (generateID b0 b1 b2).data = hexByte b0 ++ hexByte b1 ++ hexByte b2 := rfl
      rw [hdata] at hch
      simp only [hexByte, List.append_assoc, List.cons_append, List.nil_append,
        List.mem_cons, List.not_mem_nil, or_false] at hch
      rcases hch with rfl | rfl | rfl | rfl | rfl | rfl
      · exact digitChar_mem_hexChars _ (hdiv _ h0)
      · exact digitChar_mem_hexChars _ (hmod _)
      · exact digitChar_mem_hexChars _ (hdiv _ h1)
      · exact digitChar_mem_hexChars _ (hmod _)
      · exact digitChar_mem_hexChars _ (hdiv _ h2)
      · exact digitChar_mem_hexChars _ (hmod _)
  · intro reg genID hfresh
    exact insertRoom_of_not_mem _ _ (by simpa using hfresh)

/-- Witness for C9 amended at concrete bytes and a fresh registry. -/
theorem create_id_hex_no_collision_check_witness :
    ((generateID 255 0 171).length = 6 ∧
      ∀ ch ∈ (generateID 255 0 171).data, ch ∈ hexChars) ∧
    ∀ (reg : Registry) (genID : String), (∀ r ∈ reg.rooms, r.id ≠ genID) →
      (reg.create genID).1.rooms =
        reg.rooms ++ [{ id := genID, players := [], hostID := "",
                        maxPlayer := reg.maxPlayers }] :=
  create_id_hex_no_collision_check 255 0 171 (by decide) (by decide) (by decide)

/-! ## C2 counterexample and amended theorem -/

/-- C2 counterexample: movement intent is used as-is, without any clamp
to the unit range.  With playerSpeed 100 and tickRate 1, the out-of-range
movement (2, 0) yields velocity 200 > playerSpeed and a one-tick
displacement of 200 > playerSpeed × dt = 100, falsifying the claim that
out-of-range components are clamped before velocity is computed. -/
theorem movement_not_clamped :
    (processPlayer ⟨1, 100, 100, 1000, 1000⟩
        { id := "p", name := "n", position := ⟨500, 500⟩, velocity := ⟨0, 0⟩,
          lastInput := 0, inputQueue := [⟨1, ⟨2, 0⟩⟩] }).velocity.x = 200 ∧
    (processPlayer ⟨1, 100, 100, 1000, 1000⟩
        { id := "p", name := "n", position := ⟨500, 500⟩, velocity := ⟨0, 0⟩,
          lastInput := 0, inputQueue := [⟨1, ⟨2, 0⟩⟩] }).position.x = 700 ∧
    ((⟨1, 100, 100, 1000, 1000⟩ : GConfig).playerSpeed < 200 ∧
      (⟨1, 100, 100, 1000, 1000⟩ : GConfig).playerSpeed *
        (1 / ((⟨1, 100, 100, 1000, 1000⟩ : GConfig).tickRate : ℚ)) < 700 - 500) := by
  refine ⟨by norm_num [processPlayer, applyOneInput, clampAxis], ?_, by norm_num⟩
  norm_num [processPlayer, applyOneInput, clampAxis]

/-- C2 amended: the worker applies no clamp, so the bounds hold exactly
when the incoming movement components already lie in [-1, 1]: processing
one such input gives velocity components of magnitude at most playerSpeed
and, from an in-bounds position, moves each position component by at most
playerSpeed × dt. -/
theorem movement_range_velocity_bound (cfg : GConfig) (p : GPlayer) (inp : GInput)
    (hmx : |inp.movement.x| ≤ 1) (hmy : |inp.movement.y| ≤ 1)
    (hsp : 0 ≤ cfg.playerSpeed) (hb : inBounds cfg p) :
    |(applyOneInput cfg p inp).velocity.x| ≤ cfg.playerSpeed ∧
    |(applyOneInput cfg p inp).velocity.y| ≤ cfg.playerSpeed ∧
    |(applyOneInput cfg p inp).position.x - p.position.x| ≤
      cfg.playerSpeed * (1 / (cfg.tickRate : ℚ)) ∧
    |(applyOneInput cfg p inp).position.y - p.position.y| ≤
      cfg.playerSpeed * (1 / (cfg.tickRate : ℚ)) := by
  obtain ⟨hx0, hxW, hy0, hyH⟩ := hb
  have hdt : (0 : ℚ) ≤ 1 / (cfg.tickRate : ℚ) :=
    div_nonneg zero_le_one (Nat.cast_nonneg _)
  have hvel : ∀ m : ℚ, |m| ≤ 1 → |m * cfg.playerSpeed| ≤ cfg.playerSpeed := by
    intro m hm
    rw [abs_mul, abs_of_nonneg hsp]
    nlinarith [abs_nonneg m]
  have hstep : ∀ hi x m : ℚ, 0 ≤ x → x ≤ hi → |m| ≤ 1 →
      |clampAxis hi (x + m * cfg.playerSpeed * (1 / (cfg.tickRate : ℚ))) - x| ≤
        cfg.playerSpeed * (1 / (cfg.tickRate : ℚ)) := by
    intro hi x m hx hxhi hm
    have hd : |m * cfg.playerSpeed * (1 / (cfg.tickRate : ℚ))| ≤
        cfg.playerSpeed * (1 / (cfg.tickRate : ℚ)) := by
      rw [abs_mul, abs_of_nonneg hdt]
      exact mul_le_mul_of_nonneg_right (hvel m hm) hdt
    rw [abs_le] at hd
    rw [abs_le]
    simp only [clampAxis]
    split_ifs with h1 h2 h2 <;> constructor <;> linarith
  refine ⟨?_, ?_, ?_, ?_⟩
  · simpa [applyOneInput] using hvel _ hmx
  · simpa [applyOneInput] using hvel _ hmy
  · simpa [applyOneInput, mul_assoc] using hstep cfg.worldWidth p.position.x _ hx0 hxW hmx
  · simpa [applyOneInput, mul_assoc] using hstep cfg.worldHeight p.position.y _ hy0 hyH hmy

/-- Witness for C2 amended at movement (1, 0), speed 100, tick rate 1. -/
theorem movement_range_velocity_bound_witness :
    |(applyOneInput ⟨1, 100, 100, 1000, 1000⟩
        { id := "p", name := "n", position := ⟨500, 500⟩, velocity := ⟨0, 0⟩,
          lastInput := 0, inputQueue := [] } ⟨1, ⟨1, 0⟩⟩).velocity.x| ≤
      (⟨1, 100, 100, 1000, 1000⟩ : GConfig).playerSpeed := by
  have h := movement_range_velocity_bound ⟨1, 100, 100, 1000, 1000⟩
    { id := "p", name := "n", position := ⟨500, 500⟩, velocity := ⟨0, 0⟩,
      lastInput := 0, inputQueue := [] } ⟨1, ⟨1, 0⟩⟩
    (by norm_num) (by norm_num) (by norm_num) (by norm_num [inBounds])
  exact h.1

/-! ## C5 helper lemmas, counterexample and amended theorem -/

/-- A key filtered out of a snapshot map cannot be looked up. -/
theorem lookupSnap_filter_self (pid : String) (l : List (String × PSnap)) :
    lookupSnap pid (l.filter (fun en => ¬ en.1 = pid)) = none := by
  induction l with
  | nil => rfl
  | cons e es ih =>
    by_cases he : e.1 = pid
    · simpa [List.filter, he] using ih
    · simpa [List.filter, he, lookupSnap] using ih

/-- Failed lookup means no entry carries the key. -/
theorem lookupSnap_eq_none_iff (pid : String) (l : List (String × PSnap)) :
    lookupSnap pid l = none ↔ ∀ e ∈ l, e.1 ≠ pid := by
  induction l with
  | nil => simp [lookupSnap]
  | cons e es ih =>
    by_cases he : e.1 = pid
    · simp [lookupSnap, he]
    · simp [lookupSnap, he, ih]

/-- Lookup of an absent key stays absent after filtering. -/
theorem lookupSnap_filter_none (pid : String) (q : String × PSnap → Bool)
    (l : List (String × PSnap)) (h : lookupSnap pid l = none) :
    lookupSnap pid (l.filter q) = none := by
  rw [lookupSnap_eq_none_iff] at h ⊢
  intro e he
  exact h e (List.mem_of_mem_filter he)

/-- Assigning under a different key leaves a lookup unchanged. -/
theorem lookupSnap_insert_ne (pid k : String) (sn : PSnap) (l : List (String × PSnap))
    (hk : k ≠ pid) : lookupSnap pid (insertSnap k sn l) = lookupSnap pid l := by
  induction l with
  | nil => simp [insertSnap, lookupSnap, hk]
  | cons e es ih =>
    by_cases he : e.1 = k
    · simp [insertSnap, he, lookupSnap, hk]
    · simp [insertSnap, he, lookupSnap, ih]

/-- The changed-players fold never introduces a key that belongs to no
current player. -/
theorem foldl_deltaStep_lookup_none (pid : String) (fullSync : Bool)
    (players : List GPlayer) :
    ∀ acc : List String × List (String × PSnap), lookupSnap pid acc.2 = none →
      (∀ p ∈ players, ¬ p.id = pid) →
      lookupSnap pid (players.foldl (deltaStep fullSync) acc).2 = none := by
  induction players with
  | nil => intro acc hacc _; exact hacc
  | cons p ps ih =>
    intro acc hacc hids
    have hp : ¬ p.id = pid := hids p (List.mem_cons_self p ps)
    have hrest : ∀ q ∈ ps, ¬ q.id = pid := fun q hq => hids q (List.mem_cons_of_mem p hq)
    simp only [List.foldl_cons]
    apply ih _ _ hrest
    simp only [deltaStep]
    cases hl : lookupSnap p.id acc.2 with
    | none => simpa [lookupSnap_insert_ne pid p.id _ _ hp] using hacc
    | some last =>
      by_cases hc : (fullSync || hasChanged last (snapOf p)) = true
      · simpa [hc, lookupSnap_insert_ne pid p.id _ _ hp] using hacc
      · simpa [hc] using hacc

/-- C5 counterexample: Engine.RemovePlayer eagerly deletes the tracker
entry, so the next computed delta reports the removed player zero times
in its removed set, not exactly once: with p1 tracked and then removed,
the following ComputeDelta yields an empty removed list.  This falsifies
the claim that the next delta includes the player exactly once. -/
theorem removePlayer_next_delta_empty :
    (computeDelta
        (EngineSt.removePlayer
          { state := { players := [{ id := "p1", name := "n", position := ⟨0, 0⟩,
                                     velocity := ⟨0, 0⟩, lastInput := 0, inputQueue := [] }],
                       config := ⟨60, 100, 100, 1000, 1000⟩ },
            tracker := ⟨[("p1", ⟨0, 0, 0, 0⟩)]⟩ } "p1").tracker
        (EngineSt.removePlayer
          { state := { players := [{ id := "p1", name := "n", position := ⟨0, 0⟩,
                                     velocity := ⟨0, 0⟩, lastInput := 0, inputQueue := [] }],
                       config := ⟨60, 100, 100, 1000, 1000⟩ },
            tracker := ⟨[("p1", ⟨0, 0, 0, 0⟩)]⟩ } "p1").state.players false).2.1 = [] ∧
    (EngineSt.removePlayer
        { state := { players := [{ id := "p1", name := "n", position := ⟨0, 0⟩,
                                   velocity := ⟨0, 0⟩, lastInput := 0, inputQueue := [] }],
                     config := ⟨60, 100, 100, 1000, 1000⟩ },
          tracker := ⟨[("p1", ⟨0, 0, 0, 0⟩)]⟩ } "p1").tracker.lastStates = [] := by
  constructor
  · rfl
  · rfl

/-- C5 amended: after Engine.RemovePlayer of a present player the delta
tracker no longer holds the player, and the removed player never appears
in any later delta's removed set: every ComputeDelta run while the player
is untracked and absent from the player list keeps it out of removed and
out of the updated tracker (the removal is announced by the PlayerLeave
broadcast instead of a delta entry). -/
theorem removed_player_never_in_removed_set (e : EngineSt) (pid : String) :
    ((∃ q, e.state.players.find? (fun p => p.id = pid) = some q) →
      lookupSnap pid (e.removePlayer pid).tracker.lastStates = none) ∧
    (∀ (d : DTracker) (players : List GPlayer) (fullSync : Bool),
      lookupSnap pid d.lastStates = none →
      (∀ p ∈ players, ¬ p.id = pid) →
      pid ∉ (computeDelta d players fullSync).2.1 ∧
      lookupSnap pid (computeDelta d players fullSync).2.2.lastStates = none) := by
  constructor
  · rintro ⟨q, hq⟩
    simp only [EngineSt.removePlayer, hq]
    exact lookupSnap_filter_self pid _
  · intro d players fullSync hnone hids
    constructor
    · intro hmem
      simp only [computeDelta, List.mem_map] at hmem
      obtain ⟨en, henf, hen1⟩ := hmem
      have henl := List.mem_of_mem_filter henf
      exact ((lookupSnap_eq_none_iff pid d.lastStates).mp hnone en henl) hen1
    · exact foldl_deltaStep_lookup_none pid fullSync players _
        (lookupSnap_filter_none pid _ _ hnone) hids

/-- Witness for C5 amended at a concrete one-player engine state. -/
theorem removed_player_never_in_removed_set_witness :
    lookupSnap "p1"
      (EngineSt.removePlayer
        { state := { players := [{ id := "p1", name := "n", position := ⟨0, 0⟩,
                                   velocity := ⟨0, 0⟩, lastInput := 0, inputQueue := [] }],
                     config := ⟨60, 100, 100, 1000, 1000⟩ },
          tracker := ⟨[("p1", ⟨0, 0, 0, 0⟩)]⟩ } "p1").tracker.lastStates = none ∧
    "p1" ∉ (computeDelta ⟨[]⟩
      [{ id := "p2", name := "m", position := ⟨1, 1⟩, velocity := ⟨0, 0⟩,
         lastInput := 0, inputQueue := [] }] false).2.1 := by
  constructor
  · exact (removed_player_never_in_removed_set
      { state := { players := [{ id := "p1", name := "n", position := ⟨0, 0⟩,
                                 velocity := ⟨0, 0⟩, lastInput := 0, inputQueue := [] }],
                   config := ⟨60, 100, 100, 1000, 1000⟩ },
        tracker := ⟨[("p1", ⟨0, 0, 0, 0⟩)]⟩ } "p1").1
      ⟨{ id := "p1", name := "n", position := ⟨0, 0⟩, velocity := ⟨0, 0⟩,
         lastInput := 0, inputQueue := [] }, rfl⟩
  · exact ((removed_player_never_in_removed_set
      { state := { players := [], config := ⟨60, 100, 100, 1000, 1000⟩ },
        tracker := ⟨[]⟩ } "p1").2 ⟨[]⟩
      [{ id := "p2", name := "m", position := ⟨1, 1⟩, velocity := ⟨0, 0⟩,
         lastInput := 0, inputQueue := [] }] false rfl (by decide)).1

/-! ## C7 helper lemmas, counterexample and amended theorem -/

/-- If the first list holds no match, search continues in the second. -/
theorem find?_append_none {α : Type} (p : α → Bool) (l1 l2 : List α)
    (h : l1.find? p = none) : (l1 ++ l2).find? p = l2.find? p := by
  induction l1 with
  | nil => rfl
  | cons x xs ih =>
    by_cases hx : p x
    · rw [List.find?_cons_of_pos _ hx] at h
      cases h
    · rw [List.find?_cons_of_neg _ hx] at h
      simpa [List.find?_cons_of_neg _ hx] using ih h

/-- Replacing the found room in place is found by the same key. -/
theorem find?_map_replace (l : List Room) (rid : String) (room room2 : Room)
    (h : l.find? (fun r => r.id = rid) = some room) (h2 : room2.id = rid) :
    (l.map (fun r => if r.id = rid then room2 else r)).find? (fun r => r.id = rid) =
      some room2 := by
  induction l with
  | nil => cases h
  | cons x xs ih =>
    by_cases hx : x.id = rid
    · simp [List.find?_cons_of_pos, hx, h2]
    · rw [List.find?_cons_of_neg _ (by simpa using hx)] at h
      simp only [List.map_cons, if_neg hx]
      rw [List.find?_cons_of_neg _ (by simpa using hx)]
      exact ih h

/-- A successful Room.Join keeps the room ID and leaves the joining player
a member of the returned room. -/
theorem join_ok_member (room : Room) (pid name2 : String) (room2 : Room) (entry : RPlayer)
    (h : room.join pid name2 = .ok (room2, entry)) :
    room2.id = room.id ∧ (room2.players.find? (fun p => p.id = pid)).isSome := by
  by_cases hcap : room.players.length ≥ room.maxPlayer
  · simp [Room.join, hcap] at h
  · cases hfind : room.players.find? (fun p => p.id = pid) with
    | some p =>
      simp only [Room.join, if_neg hcap, hfind, Except.ok.injEq, Prod.mk.injEq] at h
      obtain ⟨rfl, rfl⟩ := h
      exact ⟨rfl, by simp [hfind]⟩
    | none =>
      simp only [Room.join, if_neg hcap, hfind, Except.ok.injEq, Prod.mk.injEq] at h
      obtain ⟨h1, -⟩ := h
      subst h1
      refine ⟨rfl, ?_⟩
      rw [find?_append_none _ _ _ hfind]
      simp

/-- C7 counterexample: with a room "ab" present and the worker spawn
failing, handleJoinRoom reports the fixed error string but leaves the
session bound to the room (roomID "ab", not IDLE) and keeps the registry
join (the room's membership now holds the player; no Leave is issued),
falsifying the claimed rollback to the pre-join state. -/
theorem spawn_failure_no_rollback :
    handleJoinRoom
        { rooms := [{ id := "ab", players := [], hostID := "", maxPlayer := 8 }],
          maxPlayers := 8 }
        { playerID := "pl", roomID := "", name := "" } false "ab" "Alice" =
      ({ rooms := [{ id := "ab", players := [{ id := "pl", name := "Alice", isHost := true }],
                     hostID := "pl", maxPlayer := 8 }], maxPlayers := 8 },
        { playerID := "pl", roomID := "ab", name := "Alice" },
        [.errorMsg "failed to start game server"]) ∧
    ({ playerID := "pl", roomID := "ab", name := "Alice" } : Client).roomID ≠ "" ∧
    [({ id := "pl", name := "Alice", isHost := true } : RPlayer)] ≠ [] := by
  refine ⟨rfl, by decide, by decide⟩

/-- C7 amended: when Registry.Join succeeds and the worker spawn fails,
the session receives exactly the error message "failed to start game
server", but the session's roomID is set to the joined room (it does not
remain IDLE) and the registry join is not rolled back: the joined room
still lists the player as a member. -/
theorem spawn_failure_keeps_join (reg : Registry) (c : Client) (roomID rawName : String)
    (reg2 : Registry) (player : RPlayer)
    (h : reg.joinR roomID c.playerID (if rawName = "" then "Player" else rawName) =
      (reg2, .ok player)) :
    handleJoinRoom reg c false roomID rawName =
      (reg2, { c with roomID := roomID, name := if rawName = "" then "Player" else rawName },
        [.errorMsg "failed to start game server"]) ∧
    ∃ room2, reg2.rooms.find? (fun r => r.id = roomID) = some room2 ∧
      (room2.players.find? (fun p => p.id = c.playerID)).isSome := by
  constructor
  · simp [handleJoinRoom, h]
  · simp only [Registry.joinR] at h
    cases hfind : reg.rooms.find? (fun r => r.id = roomID) with
    | none => simp [hfind] at h
    | some room =>
      simp only [hfind] at h
      cases hjoin : Room.join room c.playerID (if rawName = "" then "Player" else rawName) with
      | error e => simp [hjoin] at h
      | ok pr =>
        obtain ⟨room2, p⟩ := pr
        simp only [hjoin] at h
        injection h with h1 h2
        obtain ⟨hid, hmem⟩ := join_ok_member room c.playerID _ room2 p hjoin
        have hroomid : room.id = roomID := by
          have := List.find?_some hfind
          simpa using this
        refine ⟨room2, ?_, hmem⟩
        rw [← h1]
        exact find?_map_replace reg.rooms roomID room room2 hfind (hid.trans hroomid)

/-- Witness for C7 amended at the concrete one-room registry. -/
theorem spawn_failure_keeps_join_witness :
    handleJoinRoom
        { rooms := [{ id := "ab", players := [], hostID := "", maxPlayer := 8 }],
          maxPlayers := 8 }
        { playerID := "pl", roomID := "", name := "" } false "ab" "Alice" =
      ({ rooms := [{ id := "ab", players := [{ id := "pl", name := "Alice", isHost := true }],
                     hostID := "pl", maxPlayer := 8 }], maxPlayers := 8 },
        { playerID := "pl", roomID := "ab", name := "Alice" },
        [.errorMsg "failed to start game server"]) :=
  (spawn_failure_keeps_join
    { rooms := [{ id := "ab", players := [], hostID := "", maxPlayer := 8 }],
      maxPlayers := 8 }
    { playerID := "pl", roomID := "", name := "" } "ab" "Alice"
    { rooms := [{ id := "ab", players := [{ id := "pl", name := "Alice", isHost := true }],
                  hostID := "pl", maxPlayer := 8 }], maxPlayers := 8 }
    { id := "pl", name := "Alice", isHost := true } rfl).1

/-! ## C3 helper lemmas and theorem -/

/-- The two clamp conditionals land the value inside [0, hi]. -/
theorem clampAxis_mem (hi v : ℚ) (hhi : 0 ≤ hi) :
    0 ≤ clampAxis hi v ∧ clampAxis hi v ≤ hi := by
  simp only [clampAxis]
  split_ifs <;> constructor <;> linarith

/-- Applying one input always lands in bounds, whatever the start. -/
theorem applyOneInput_inBounds (cfg : GConfig) (p : GPlayer) (inp : GInput)
    (hW : 0 ≤ cfg.worldWidth) (hH : 0 ≤ cfg.worldHeight) :
    inBounds cfg (applyOneInput cfg p inp) := by
  simp only [applyOneInput, inBounds]
  exact ⟨(clampAxis_mem _ _ hW).1, (clampAxis_mem _ _ hW).2,
    (clampAxis_mem _ _ hH).1, (clampAxis_mem _ _ hH).2⟩

/-- Draining a queue preserves in-bounds positions. -/
theorem foldl_applyOneInput_inBounds (cfg : GConfig) (l : List GInput) (p : GPlayer)
    (hW : 0 ≤ cfg.worldWidth) (hH : 0 ≤ cfg.worldHeight) (hp : inBounds cfg p) :
    inBounds cfg (l.foldl (applyOneInput cfg) p) := by
  induction l generalizing p with
  | nil => exact hp
  | cons i t ih => exact ih _ (applyOneInput_inBounds cfg p i hW hH)

/-- processPlayer preserves in-bounds positions. -/
theorem processPlayer_inBounds (cfg : GConfig) (p : GPlayer)
    (hW : 0 ≤ cfg.worldWidth) (hH : 0 ≤ cfg.worldHeight) (hp : inBounds cfg p) :
    inBounds cfg (processPlayer cfg p) := by
  have h := foldl_applyOneInput_inBounds cfg p.inputQueue p hW hH hp
  simpa [processPlayer, inBounds] using h

/-- Members of a map assignment are the assigned entry or prior members. -/
theorem mem_insertGPlayer {x p : GPlayer} {l : List GPlayer}
    (h : x ∈ insertGPlayer p l) : x = p ∨ x ∈ l := by
  induction l with
  | nil => exact .inl (by simpa [insertGPlayer] using h)
  | cons y ys ih =>
    simp only [insertGPlayer] at h
    split_ifs at h with hy
    · rcases List.mem_cons.mp h with rfl | hx
      · exact .inl rfl
      · exact .inr (List.mem_cons_of_mem _ hx)
    · rcases List.mem_cons.mp h with rfl | hx
      · exact .inr (List.mem_cons_self _ _)
      · rcases ih hx with h2 | h2
        · exact .inl h2
        · exact .inr (List.mem_cons_of_mem _ h2)

/-- Worker operations never change the configuration. -/
theorem runGOp_config (s : GState) (op : GOp) : (runGOp s op).config = s.config := by
  cases op with
  | add pid name =>
    by_cases hc : s.players.length ≥ s.config.maxPlayers <;>
      simp [runGOp, GState.addPlayer, hc]
  | putInput pid inp =>
    simp only [runGOp, GState.applyInput]
    cases hf : s.players.find? (fun p => p.id = pid) with
    | none => rfl
    | some p => by_cases hs : inp.sequence ≤ p.lastInput <;> simp [hs]
  | process => rfl

/-- One worker operation preserves the all-in-bounds invariant. -/
theorem runGOp_allInBounds (cfg : GConfig) (s : GState) (op : GOp)
    (hcfg : s.config = cfg) (hW : 0 ≤ cfg.worldWidth) (hH : 0 ≤ cfg.worldHeight)
    (h : ∀ p ∈ s.players, inBounds cfg p) :
    ∀ p ∈ (runGOp s op).players, inBounds cfg p := by
  cases op with
  | add pid name =>
    by_cases hc : s.players.length ≥ s.config.maxPlayers
    · simpa [runGOp, GState.addPlayer, hc] using h
    · intro p hp
      simp only [runGOp, GState.addPlayer, if_neg hc] at hp
      rcases mem_insertGPlayer hp with rfl | hp2
      · subst hcfg
        constructor
        · positivity
        · refine ⟨by linarith, by positivity, by linarith⟩
      · exact h p hp2
  | putInput pid inp =>
    intro p hp
    simp only [runGOp, GState.applyInput] at hp
    cases hf : s.players.find? (fun q => q.id = pid) with
    | none => exact h p (by rwa [hf] at hp)
    | some q =>
      rw [hf] at hp
      by_cases hs : inp.sequence ≤ q.lastInput
      · exact h p (by simpa [hs] using hp)
      · simp only [if_neg hs] at hp
        simp only [List.mem_map] at hp
        obtain ⟨r, hr, hrp⟩ := hp
        have hrB := h r hr
        by_cases hid : r.id = pid
        · rw [if_pos hid] at hrp
          rw [← hrp]
          exact hrB
        · rw [if_neg hid] at hrp
          rw [← hrp]
          exact hrB
  | process =>
    intro p hp
    simp only [runGOp, GState.processInputs, List.mem_map] at hp
    obtain ⟨r, hr, hrp⟩ := hp
    rw [← hrp, hcfg]
    exact processPlayer_inBounds cfg r hW hH (h r hr)

/-- Any operation sequence preserves the all-in-bounds invariant. -/
theorem runG_allInBounds (cfg : GConfig) (ops : List GOp) (s : GState)
    (hcfg : s.config = cfg) (hW : 0 ≤ cfg.worldWidth) (hH : 0 ≤ cfg.worldHeight)
    (h : ∀ p ∈ s.players, inBounds cfg p) :
    (runG s ops).config = cfg ∧ ∀ p ∈ (runG s ops).players, inBounds cfg p := by
  induction ops generalizing s with
  | nil => exact ⟨hcfg, h⟩
  | cons op t ih =>
    have hc2 : (runGOp s op).config = cfg := (runGOp_config s op).trans hcfg
    exact ih (runGOp s op) hc2 (runGOp_allInBounds cfg s op hcfg hW hH h)

/-- C3: world bound.  For any sequence of AddPlayer/ApplyInput/
ProcessInputs operations from a fresh state of a configuration with
non-negative world dimensions, every player's position after
ProcessInputs lies in [0, worldWidth] × [0, worldHeight] (players spawn
at the centre and every processed input ends in the clamp); and at the
boundary, a player sitting at (worldWidth, y) given movement (1, 0)
stays at (worldWidth, y). -/
theorem world_bound_after_processInputs (cfg : GConfig)
    (hW : 0 ≤ cfg.worldWidth) (hH : 0 ≤ cfg.worldHeight) :
    (∀ (ops : List GOp), ∀ p ∈ ((runG (newGState cfg) ops).processInputs).players,
      inBounds cfg p) ∧
    (∀ (p : GPlayer) (y : ℚ) (seq : Nat), 0 ≤ cfg.playerSpeed →
      p.position = ⟨cfg.worldWidth, y⟩ → 0 ≤ y → y ≤ cfg.worldHeight →
      (applyOneInput cfg p ⟨seq, ⟨1, 0⟩⟩).position = ⟨cfg.worldWidth, y⟩) := by
  constructor
  · intro ops p hp
    obtain ⟨hcfg, hinv⟩ := runG_allInBounds cfg ops (newGState cfg) rfl hW hH
      (by intro q hq; cases hq)
    simp only [GState.processInputs, List.mem_map] at hp
    obtain ⟨r, hr, hrp⟩ := hp
    rw [← hrp, hcfg]
    exact processPlayer_inBounds cfg r hW hH (hinv r hr)
  · intro p y seq hsp hpos hy0 hyH
    have hdt : (0 : ℚ) ≤ 1 / (cfg.tickRate : ℚ) :=
      div_nonneg zero_le_one (Nat.cast_nonneg _)
    have hprod : 0 ≤ cfg.playerSpeed * ((cfg.tickRate : ℚ))⁻¹ := by
      rw [← one_div]
      exact mul_nonneg hsp hdt
    simp only [applyOneInput, hpos]
    have hx : clampAxis cfg.worldWidth
        (cfg.worldWidth + cfg.playerSpeed * ((cfg.tickRate : ℚ))⁻¹) =
        cfg.worldWidth := by
      simp only [clampAxis]
      split_ifs with h1 h2 h2 <;> linarith
    have hyeq : clampAxis cfg.worldHeight y = y := by
      simp only [clampAxis]
      split_ifs with h1 h2 h2 <;> linarith
    simp only [one_mul, zero_mul, add_zero, one_div, Vec2.mk.injEq]
    exact ⟨hx, hyeq⟩

/-- Witness for C3 at a concrete 10 × 10 world with one processed input. -/
theorem world_bound_after_processInputs_witness :
    inBounds ⟨1, 100, 1, 10, 10⟩
      { id := "p", name := "n", position := ⟨6, 5⟩, velocity := ⟨1, 0⟩,
        lastInput := 1, inputQueue := [] } :=
  (world_bound_after_processInputs ⟨1, 100, 1, 10, 10⟩ (by norm_num) (by norm_num)).1
    [GOp.add "p" "n", GOp.putInput "p" ⟨1, ⟨1, 0⟩⟩, GOp.process]
    { id := "p", name := "n", position := ⟨6, 5⟩, velocity := ⟨1, 0⟩,
      lastInput := 1, inputQueue := [] }
    (by norm_num [runG, runGOp, newGState, GState.addPlayer, insertGPlayer,
      GState.applyInput, GState.processInputs, processPlayer, applyOneInput, clampAxis])

/-! ## C4 helper lemmas and theorem -/

/-- find? by ID commutes with a map that preserves IDs. -/
theorem find?_id_map (l : List GPlayer) (f : GPlayer → GPlayer) (pid : String)
    (hf : ∀ q, (f q).id = q.id) :
    (l.map f).find? (fun r => r.id = pid) = (l.find? (fun r => r.id = pid)).map f := by
  induction l with
  | nil => rfl
  | cons x xs ih =>
    by_cases hx : x.id = pid
    · rw [List.map_cons, List.find?_cons_of_pos _ (by simp [hf, hx]),
        List.find?_cons_of_pos _ (by simp [hx])]
      rfl
    · rw [List.map_cons, List.find?_cons_of_neg _ (by simp [hf, hx]),
        List.find?_cons_of_neg _ (by simp [hx])]
      exact ih

/-- Draining a queue of strictly newer inputs never lowers LastInput
below its starting value. -/
theorem foldl_applyOneInput_lastInput (cfg : GConfig) (l : List GInput) :
    ∀ (p : GPlayer) (a : Nat), a ≤ p.lastInput → (∀ i ∈ l, a < i.sequence) →
      a ≤ (l.foldl (applyOneInput cfg) p).lastInput := by
  induction l with
  | nil => intro p a ha _; exact ha
  | cons i t ih =>
    intro p a ha hl
    simp only [List.foldl_cons]
    apply ih
    · have hlt : a < i.sequence := hl i (List.mem_cons_self i t)
      simpa [applyOneInput] using le_of_lt hlt
    · intro j hj
      exact hl j (List.mem_cons_of_mem i hj)

/-- processPlayer keeps the player's ID. -/
theorem processPlayer_id (cfg : GConfig) (p : GPlayer) :
    (processPlayer cfg p).id = p.id := by
  suffices h : ∀ (l : List GInput) (q : GPlayer), (l.foldl (applyOneInput cfg) q).id = q.id by
    simpa [processPlayer] using h p.inputQueue p
  intro l
  induction l with
  | nil => intro q; rfl
  | cons i t ih => intro q; simpa [applyOneInput] using ih (applyOneInput cfg q i)

/-- Under the queue invariant processPlayer never lowers LastInput. -/
theorem processPlayer_lastInput (cfg : GConfig) (p : GPlayer)
    (hq : ∀ i ∈ p.inputQueue, p.lastInput < i.sequence) :
    p.lastInput ≤ (processPlayer cfg p).lastInput := by
  have h := foldl_applyOneInput_lastInput cfg p.inputQueue p p.lastInput le_rfl hq
  simpa [processPlayer] using h

/-- Player IDs are pairwise distinct. -/
def idsNodup (s : GState) : Prop :=
  (s.players.map (fun p => p.id)).Nodup

/-- The state well-formedness every reachable worker state enjoys. -/
def wfState (s : GState) : Prop :=
  idsNodup s ∧ queueInv s

/-- IDs appearing after a map assignment. -/
theorem ids_mem_insertGPlayer {p : GPlayer} {l : List GPlayer} {y : String}
    (h : y ∈ (insertGPlayer p l).map (fun q => q.id)) :
    y = p.id ∨ y ∈ l.map (fun q => q.id) := by
  simp only [List.mem_map] at h ⊢
  obtain ⟨x, hx, rfl⟩ := h
  rcases mem_insertGPlayer hx with rfl | hx2
  · exact .inl rfl
  · exact .inr ⟨x, hx2, rfl⟩

/-- Map assignment preserves distinctness of IDs. -/
theorem idsNodup_insertGPlayer (p : GPlayer) (l : List GPlayer)
    (h : (l.map (fun q => q.id)).Nodup) :
    ((insertGPlayer p l).map (fun q => q.id)).Nodup := by
  induction l with
  | nil => simp [insertGPlayer]
  | cons x xs ih =>
    simp only [List.map_cons, List.nodup_cons] at h
    by_cases hx : x.id = p.id
    · simp only [insertGPlayer, if_pos hx, List.map_cons, List.nodup_cons]
      exact ⟨hx ▸ h.1, h.2⟩
    · simp only [insertGPlayer, if_neg hx, List.map_cons, List.nodup_cons]
      refine ⟨fun hmem => ?_, ih h.2⟩
      rcases ids_mem_insertGPlayer hmem with h2 | h2
      · exact hx h2
      · exact h.1 h2

/-- An ID-preserving map leaves the ID list unchanged. -/
theorem ids_map_eq (l : List GPlayer) (f : GPlayer → GPlayer)
    (hf : ∀ q, (f q).id = q.id) :
    (l.map f).map (fun q => q.id) = l.map (fun q => q.id) := by
  induction l with
  | nil => rfl
  | cons x xs ih => simp [hf, ih]

/-- Every worker operation preserves well-formedness. -/
theorem runGOp_wf (s : GState) (op : GOp) (h : wfState s) : wfState (runGOp s op) := by
  obtain ⟨hn, hq⟩ := h
  cases op with
  | add pid name =>
    by_cases hc : s.players.length ≥ s.config.maxPlayers
    · simpa [runGOp, GState.addPlayer, hc] using And.intro hn hq
    · constructor
      · simp only [wfState, idsNodup, runGOp, GState.addPlayer, if_neg hc]
        exact idsNodup_insertGPlayer _ _ hn
      · intro p hp i hi
        simp only [runGOp, GState.addPlayer, if_neg hc] at hp
        rcases mem_insertGPlayer hp with rfl | hp2
        · cases hi
        · exact hq p hp2 i hi
  | putInput pid inp =>
    simp only [runGOp, GState.applyInput]
    cases hf : s.players.find? (fun q => q.id = pid) with
    | none => exact ⟨hn, hq⟩
    | some p =>
      by_cases hs : inp.sequence ≤ p.lastInput
      · simpa [hs] using And.intro hn hq
      · simp only [if_neg hs]
        constructor
        · simp only [idsNodup]
          rw [ids_map_eq]
          · exact hn
          · intro q
            split_ifs <;> rfl
        · intro q hqmem i hi
          simp only [List.mem_map] at hqmem
          obtain ⟨r, hr, hrq⟩ := hqmem
          by_cases hid : r.id = pid
          · have hpm : p ∈ s.players := List.mem_of_find?_eq_some hf
            have hpid : p.id = pid := by simpa using List.find?_some hf
            have hn2 : (s.players.map (fun q => q.id)).Nodup := hn
            have hrp : r = p :=
              nodup_key_inj (fun q => q.id) hn2 hr hpm (by simpa using hid.trans hpid.symm)
            rw [if_pos hid] at hrq
            subst hrq
            subst hrp
            simp only [List.mem_append, List.mem_singleton] at hi
            rcases hi with hi | rfl
            · exact hq r hr i hi
            · exact Nat.lt_of_not_le hs
          · rw [if_neg hid] at hrq
            subst hrq
            exact hq r hr i hi
  | process =>
    constructor
    · simp only [idsNodup, runGOp, GState.processInputs]
      rw [ids_map_eq _ _ (processPlayer_id s.config)]
      exact hn
    · intro q hqmem i hi
      simp only [runGOp, GState.processInputs, List.mem_map] at hqmem
      obtain ⟨r, _, hrq⟩ := hqmem
      rw [← hrq] at hi
      simp only [processPlayer] at hi
      cases hi

/-- The input-layer operations are worker operations. -/
theorem runIOp_as_runGOp (s : GState) (op : IOp) :
    runIOp s op = runGOp s
      (match op with
        | .putInput pid inp => GOp.putInput pid inp
        | .process => GOp.process) := by
  cases op <;> rfl

/-- One input-layer operation never lowers a tracked player's LastInput. -/
theorem runIOp_lastInput_mono (s : GState) (op : IOp) (pid : String) (p : GPlayer)
    (hw : wfState s) (h : s.players.find? (fun q => q.id = pid) = some p) :
    ∃ q, (runIOp s op).players.find? (fun r => r.id = pid) = some q ∧
      p.lastInput ≤ q.lastInput := by
  obtain ⟨hn, hqi⟩ := hw
  cases op with
  | putInput pid2 inp =>
    simp only [runIOp, GState.applyInput]
    cases hf : s.players.find? (fun q => q.id = pid2) with
    | none => exact ⟨p, h, le_rfl⟩
    | some r =>
      by_cases hs : inp.sequence ≤ r.lastInput
      · simp only [if_pos hs]
        exact ⟨p, h, le_rfl⟩
      · simp only [if_neg hs]
        have hfid : ∀ q : GPlayer,
            ((fun q => if q.id = pid2
                then { q with inputQueue := q.inputQueue ++ [inp] } else q) q).id = q.id := by
          intro q
          by_cases hq2 : q.id = pid2 <;> simp [hq2]
        rw [find?_id_map _ _ pid hfid, h]
        refine ⟨_, rfl, ?_⟩
        by_cases hp2 : p.id = pid2 <;> simp [hp2]
  | process =>
    simp only [runIOp, GState.processInputs]
    rw [find?_id_map _ _ pid (processPlayer_id s.config), h]
    exact ⟨processPlayer s.config p, rfl,
      processPlayer_lastInput _ _ (hqi p (List.mem_of_find?_eq_some h))⟩

/-- LastInput is non-decreasing across input-layer operation sequences. -/
theorem runI_lastInput_mono (ops : List IOp) (s : GState) (pid : String) (p : GPlayer)
    (hw : wfState s) (h : s.players.find? (fun q => q.id = pid) = some p) :
    ∃ q, (runI s ops).players.find? (fun r => r.id = pid) = some q ∧
      p.lastInput ≤ q.lastInput := by
  induction ops generalizing s p with
  | nil => exact ⟨p, h, le_rfl⟩
  | cons op t ih =>
    obtain ⟨q, hq, hle⟩ := runIOp_lastInput_mono s op pid p hw h
    have hw2 : wfState (runIOp s op) := by
      rw [runIOp_as_runGOp]
      exact runGOp_wf _ _ hw
    obtain ⟨q2, hq2, hle2⟩ := ih (runIOp s op) q hw2 hq
    exact ⟨q2, hq2, hle.trans hle2⟩

/-- Well-formedness is preserved along any worker operation sequence. -/
theorem runG_wf_aux (ops : List GOp) (s : GState) (h : wfState s) :
    wfState (runG s ops) := by
  induction ops generalizing s with
  | nil => exact h
  | cons op t ih => exact ih (runGOp s op) (runGOp_wf s op h)

/-- States reachable from a fresh state are well-formed. -/
theorem runG_wf (cfg : GConfig) (ops : List GOp) :
    wfState (runG (newGState cfg) ops) :=
  runG_wf_aux ops (newGState cfg) ⟨List.nodup_nil, fun p hp => absurd hp (by simp [newGState])⟩

/-- C4: for a player present in a reachable worker state, ApplyInput
returns true exactly when the input's sequence strictly exceeds the
player's LastInput at call time (equality is rejected, LastInput + 1 is
accepted), and the player's LastInput is non-decreasing across any
subsequent sequence of ApplyInput and ProcessInputs operations. -/
theorem applyInput_seq_iff_monotone (cfg : GConfig) (gops : List GOp) (pid : String)
    (p : GPlayer) (inp : GInput)
    (h : (runG (newGState cfg) gops).players.find? (fun q => q.id = pid) = some p) :
    (((runG (newGState cfg) gops).applyInput pid inp).2 = true ↔
      p.lastInput < inp.sequence) ∧
    ∀ (iops : List IOp) (q : GPlayer),
      (runI (runG (newGState cfg) gops) iops).players.find? (fun r => r.id = pid) = some q →
      p.lastInput ≤ q.lastInput := by
  constructor
  · simp only [GState.applyInput, h]
    by_cases hs : inp.sequence ≤ p.lastInput
    · simp only [if_pos hs]
      simp [Nat.not_lt_of_le hs]
    · simp only [if_neg hs]
      simp [Nat.lt_of_not_le hs]
  · intro iops q hq
    obtain ⟨q2, hq2, hle⟩ :=
      runI_lastInput_mono iops _ pid p (runG_wf cfg gops) h
    have hqq : q2 = q := by
      have := hq2.symm.trans hq
      exact Option.some.inj this
    exact hqq ▸ hle

/-- Witness for C4: one added player, an input of sequence 1 against
LastInput 0, and a subsequent enqueue of sequence 3. -/
theorem applyInput_seq_iff_monotone_witness :
    (((runG (newGState ⟨1, 100, 1, 10, 10⟩) [GOp.add "p" "n"]).applyInput "p"
        ⟨1, ⟨0, 0⟩⟩).2 = true ↔ (0 : Nat) < 1) ∧ (0 : Nat) ≤ 0 := by
  have hfind : (runG (newGState ⟨1, 100, 1, 10, 10⟩) [GOp.add "p" "n"]).players.find?
      (fun q => q.id = "p") = some
      { id := "p", name := "n", position := ⟨5, 5⟩, velocity := ⟨0, 0⟩,
        lastInput := 0, inputQueue := [] } := by
    norm_num [runG, runGOp, newGState, GState.addPlayer, insertGPlayer, List.find?]
  have h := applyInput_seq_iff_monotone ⟨1, 100, 1, 10, 10⟩ [GOp.add "p" "n"] "p"
    { id := "p", name := "n", position := ⟨5, 5⟩, velocity := ⟨0, 0⟩,
      lastInput := 0, inputQueue := [] } ⟨1, ⟨0, 0⟩⟩ hfind
  refine ⟨h.1, ?_⟩
  refine h.2 [IOp.putInput "p" ⟨3, ⟨0, 0⟩⟩]
    { id := "p", name := "n", position := ⟨5, 5⟩, velocity := ⟨0, 0⟩,
      lastInput := 0, inputQueue := [⟨3, ⟨0, 0⟩⟩] } ?_
  norm_num [runI, runIOp, GState.applyInput, List.find?, runG, runGOp,
    newGState, GState.addPlayer, insertGPlayer]

/-! ## C1 helper lemmas, counterexample and amended theorem -/

/-- The single-room invariant the registry maintains: host flags agree
with hostID, a non-empty room's hostID names a member, and member IDs
are pairwise distinct.  Nothing is claimed about the hostID of an empty
room — see the counterexample. -/
def roomInv (room : Room) : Prop :=
  (∀ p ∈ room.players, p.isHost = true ↔ p.id = room.hostID) ∧
  (room.players ≠ [] → ∃ p ∈ room.players, p.id = room.hostID) ∧
  (room.players.map (fun p => p.id)).Nodup

/-- Every registry room satisfies the single-room invariant. -/
def regInv (reg : Registry) : Prop :=
  ∀ room ∈ reg.rooms, roomInv room

/-- Members of a room-map assignment are the assigned room or priors. -/
theorem mem_insertRoom {x r : Room} {l : List Room}
    (h : x ∈ insertRoom r l) : x = r ∨ x ∈ l := by
  induction l with
  | nil => exact .inl (by simpa [insertRoom] using h)
  | cons y ys ih =>
    simp only [insertRoom] at h
    split_ifs at h with hy
    · rcases List.mem_cons.mp h with rfl | hx
      · exact .inl rfl
      · exact .inr (List.mem_cons_of_mem _ hx)
    · rcases List.mem_cons.mp h with rfl | hx
      · exact .inr (List.mem_cons_self _ _)
      · rcases ih hx with h2 | h2
        · exact .inl h2
        · exact .inr (List.mem_cons_of_mem _ h2)

/-- Room.Join preserves the single-room invariant. -/
theorem roomInv_join (room : Room) (pid name2 : String) (room2 : Room) (entry : RPlayer)
    (hinv : roomInv room) (h : room.join pid name2 = .ok (room2, entry)) :
    roomInv room2 := by
  obtain ⟨hiff, hex, hnd⟩ := hinv
  by_cases hcap : room.players.length ≥ room.maxPlayer
  · simp [Room.join, hcap] at h
  · cases hfind : room.players.find? (fun p => p.id = pid) with
    | some p =>
      simp only [Room.join, if_neg hcap, hfind, Except.ok.injEq, Prod.mk.injEq] at h
      obtain ⟨rfl, rfl⟩ := h
      exact ⟨hiff, hex, hnd⟩
    | none =>
      have hout : ∀ p ∈ room.players, ¬ p.id = pid := by
        intro p hp
        have := List.find?_eq_none.mp hfind p hp
        simpa using this
      simp only [Room.join, if_neg hcap, hfind, Except.ok.injEq, Prod.mk.injEq] at h
      obtain ⟨h1, -⟩ := h
      subst h1
      by_cases hlen : room.players.length = 0
      · have hempty : room.players = [] := List.length_eq_zero.mp hlen
        refine ⟨?_, ?_, ?_⟩
        · intro p hp
          simp only [hempty, List.nil_append, List.mem_singleton] at hp
          subst hp
          simp [hlen]
        · intro _
          exact ⟨{ id := pid, name := name2, isHost := decide (room.players.length = 0) },
            by simp [hempty], by simp [hlen]⟩
        · simp [hempty]
      · have hne : room.players ≠ [] := fun he => hlen (by simp [he])
        obtain ⟨hp0, hp0mem, hp0id⟩ := hex hne
        have hhostne : room.hostID ≠ pid := fun he => hout hp0 hp0mem (hp0id.trans he)
        refine ⟨?_, ?_, ?_⟩
        · intro p hp
          simp only [List.mem_append, List.mem_singleton] at hp
          rcases hp with hp | rfl
          · simpa [hlen] using hiff p hp
          · simp [hlen, hhostne.symm]
        · intro _
          refine ⟨hp0, by simp [hp0mem], by simpa [hlen] using hp0id⟩
        · rw [List.map_append]
          simp only [List.map_cons, List.map_nil]
          rw [List.nodup_append]
          refine ⟨hnd, List.nodup_singleton _, ?_⟩
          intro y hy
          simp only [List.mem_map] at hy
          obtain ⟨p, hp, rfl⟩ := hy
          simpa using fun he => hout p hp he

/-- Room.Leave preserves the single-room invariant. -/
theorem roomInv_leave (room : Room) (pid : String) (hinv : roomInv room) :
    roomInv (room.leave pid) := by
  obtain ⟨hiff, hex, hnd⟩ := hinv
  have hsub : ((room.players.filter (fun p => ¬ p.id = pid)).map
      (fun p => p.id)).Sublist (room.players.map (fun p => p.id)) :=
    (List.filter_sublist _).map _
  have hndf : ((room.players.filter (fun p => ¬ p.id = pid)).map
      (fun p => p.id)).Nodup := hnd.sublist hsub
  simp only [Room.leave]
  by_cases hhost : pid = room.hostID
  · rw [if_pos hhost]
    cases hps : room.players.filter (fun p => ¬ p.id = pid) with
    | nil =>
      exact ⟨by simp, by simp, by simp⟩
    | cons q rest =>
      have hqmem : q ∈ room.players := List.mem_of_mem_filter (hps ▸ List.mem_cons_self q rest)
      have hrestmem : ∀ r ∈ rest, r ∈ room.players := by
        intro r hr
        exact List.mem_of_mem_filter (hps ▸ List.mem_cons_of_mem q hr)
      have hrestne : ∀ r ∈ rest, ¬ r.id = pid := by
        intro r hr
        have hrf := hps ▸ List.mem_cons_of_mem q hr
        have := List.of_mem_filter hrf
        simpa using this
      have hndps : ((q :: rest).map (fun p => p.id)).Nodup := hps ▸ hndf
      simp only [List.map_cons, List.nodup_cons] at hndps
      refine ⟨?_, ?_, ?_⟩
      · intro p hp
        simp only [List.mem_cons] at hp
        rcases hp with rfl | hp
        · simp
        · have hpH : p.isHost = false := by
            have h2 := hiff p (hrestmem p hp)
            by_cases hb : p.isHost = true
            · exact absurd ((h2.mp hb).trans hhost.symm) (hrestne p hp)
            · simpa using hb
          simp only [hpH]
          constructor
          · intro h3
            cases h3
          · intro h3
            exact absurd (h3 ▸ List.mem_map_of_mem (fun p => p.id) hp) hndps.1
      · intro _
        exact ⟨{ q with isHost := true }, List.mem_cons_self _ _, rfl⟩
      · simpa using hndps
  · rw [if_neg hhost]
    refine ⟨?_, ?_, hndf⟩
    · intro p hp
      exact hiff p (List.mem_of_mem_filter hp)
    · intro hne2
      have hplayersne : room.players ≠ [] := by
        intro he
        rw [he] at hne2
        exact hne2 rfl
      obtain ⟨p0, hp0mem, hp0id⟩ := hex hplayersne
      refine ⟨p0, ?_, hp0id⟩
      apply List.mem_filter.mpr
      refine ⟨hp0mem, ?_⟩
      simp only [decide_eq_true_eq]
      intro he
      exact hhost (he ▸ hp0id)

/-- One registry operation preserves the registry invariant. -/
theorem regInv_runRegOp (reg : Registry) (op : RegOp) (h : regInv reg) :
    regInv (runRegOp reg op) := by
  cases op with
  | create genID =>
    intro room hmem
    simp only [runRegOp, Registry.create] at hmem
    rcases mem_insertRoom hmem with rfl | hmem2
    · exact ⟨by simp, by simp, by simp⟩
    · exact h room hmem2
  | join roomID pid pname =>
    intro room hmem
    simp only [runRegOp, Registry.joinR] at hmem
    cases hfind : reg.rooms.find? (fun r => r.id = roomID) with
    | none => exact h room (by rwa [hfind] at hmem)
    | some room0 =>
      rw [hfind] at hmem
      cases hjoin : room0.join pid pname with
      | error e => exact h room (by simpa [hjoin] using hmem)
      | ok pr =>
        obtain ⟨room2, p⟩ := pr
        simp only [hjoin, List.mem_map] at hmem
        obtain ⟨r, hr, hrr⟩ := hmem
        have hinv0 : roomInv room0 := h room0 (List.mem_of_find?_eq_some hfind)
        by_cases hid : r.id = roomID
        · rw [if_pos hid] at hrr
          rw [← hrr]
          exact roomInv_join room0 pid pname room2 p hinv0 hjoin
        · rw [if_neg hid] at hrr
          rw [← hrr]
          exact h r hr
  | leave roomID pid =>
    intro room hmem
    simp only [runRegOp, Registry.leaveR] at hmem
    cases hfind : reg.rooms.find? (fun r => r.id = roomID) with
    | none => exact h room (by rwa [hfind] at hmem)
    | some room0 =>
      simp only [hfind, List.mem_map] at hmem
      obtain ⟨r, hr, hrr⟩ := hmem
      have hinv0 : roomInv room0 := h room0 (List.mem_of_find?_eq_some hfind)
      by_cases hid : r.id = roomID
      · rw [if_pos hid] at hrr
        rw [← hrr]
        exact roomInv_leave room0 pid hinv0
      · rw [if_neg hid] at hrr
        rw [← hrr]
        exact h r hr

/-- The registry invariant holds along every operation sequence. -/
theorem regInv_runReg (ops : List RegOp) (reg : Registry) (h : regInv reg) :
    regInv (runReg reg ops) := by
  induction ops generalizing reg with
  | nil => exact h
  | cons op t ih => exact ih (runRegOp reg op) (regInv_runRegOp reg op h)

/-- C1 counterexample: Create "ab", Join "ab" p, Leave "ab" p leaves an
empty room whose HostID is still "p", not "": Room.Leave only reassigns
the host when members remain and never clears HostID, falsifying the
part of the claim that empty rooms have HostID = "" after the last
member leaves. -/
theorem room_empty_hostID_not_cleared :
    (runReg (emptyRegistry 8)
        [RegOp.create "ab", RegOp.join "ab" "p" "Alice", RegOp.leave "ab" "p"]).rooms =
      [{ id := "ab", players := [], hostID := "p", maxPlayer := 8 }] ∧
    ("p" : String) ≠ "" := by
  exact ⟨rfl, by decide⟩

/-- C1 amended: after every sequence of Create/Join/Leave operations,
every registry room with non-empty membership has exactly one member
with isHost = true and its HostID equals that member's ID.  (The
empty-room half of the original claim fails: a room emptied by Leave
retains the departed host's ID — see the counterexample; only
freshly created rooms carry HostID = "".) -/
theorem room_host_invariant (mp : Nat) (ops : List RegOp) (room : Room)
    (hmem : room ∈ (runReg (emptyRegistry mp) ops).rooms)
    (hne : room.players ≠ []) :
    ∃ p, p ∈ room.players ∧ p.isHost = true ∧ room.hostID = p.id ∧
      ∀ q ∈ room.players, q.isHost = true → q = p := by
  have hinv : roomInv room :=
    regInv_runReg ops (emptyRegistry mp) (fun r hr => absurd hr (by simp [emptyRegistry]))
      room hmem
  obtain ⟨hiff, hex, hnd⟩ := hinv
  obtain ⟨p, hpmem, hpid⟩ := hex hne
  refine ⟨p, hpmem, (hiff p hpmem).mpr hpid, hpid.symm, ?_⟩
  intro q hqmem hqhost
  have hqid : q.id = room.hostID := (hiff q hqmem).mp hqhost
  exact nodup_key_inj (fun r => r.id) hnd hqmem hpmem (by simpa using hqid.trans hpid.symm)

/-- Witness for C1 at a concrete room after one Create and one Join. -/
theorem room_host_invariant_witness :
    ∃ p, p ∈ ({ id := "ab", players := [{ id := "p", name := "Alice", isHost := true }],
                hostID := "p", maxPlayer := 8 } : Room).players ∧ p.isHost = true ∧
      ({ id := "ab", players := [{ id := "p", name := "Alice", isHost := true }],
         hostID := "p", maxPlayer := 8 } : Room).hostID = p.id ∧
      ∀ q ∈ ({ id := "ab", players := [{ id := "p", name := "Alice", isHost := true }],
               hostID := "p", maxPlayer := 8 } : Room).players, q.isHost = true → q = p :=
  room_host_invariant 8 [RegOp.create "ab", RegOp.join "ab" "p" "Alice"] _
    (by decide) (by decide)

/-! ## C8 helper lemmas and theorem -/

/-- No peer connection holds a sender track produced from its own
player. -/
def sfuInv (m : Sfu) : Prop :=
  ∀ e ∈ m.peerConns, ∀ t ∈ e.2, t.source ≠ e.1

/-- A successful lookup names a member entry. -/
theorem lookupPC_mem {pid : String} {l : List (String × List STrack)} {ts : List STrack}
    (h : lookupPC pid l = some ts) : (pid, ts) ∈ l := by
  induction l with
  | nil => cases h
  | cons e es ih =>
    obtain ⟨a, b⟩ := e
    simp only [lookupPC] at h
    split_ifs at h with he
    · obtain rfl := Option.some.inj h
      simp only at he
      subst he
      exact List.mem_cons_self _ _
    · exact List.mem_cons_of_mem _ (ih h)

/-- Entries after adding tracks to one player's sender list. -/
theorem mem_addTracks {pid : String} {ts : List STrack} {l : List (String × List STrack)}
    {e2 : String × List STrack} (h : e2 ∈ addTracks pid ts l) :
    e2 ∈ l ∨ ∃ e ∈ l, e.1 = pid ∧ e2 = (e.1, e.2 ++ ts) := by
  induction l with
  | nil => simp [addTracks] at h
  | cons e es ih =>
    simp only [addTracks] at h
    split_ifs at h with he
    · rcases List.mem_cons.mp h with rfl | h2
      · exact .inr ⟨e, List.mem_cons_self _ _, he, rfl⟩
      · exact .inl (List.mem_cons_of_mem _ h2)
    · rcases List.mem_cons.mp h with rfl | h2
      · exact .inl (List.mem_cons_self _ _)
      · rcases ih h2 with h3 | ⟨e0, he0, he0p, he0e⟩
        · exact .inl (List.mem_cons_of_mem _ h3)
        · exact .inr ⟨e0, List.mem_cons_of_mem _ he0, he0p, he0e⟩

/-- CreatePeerConnection preserves the no-self-echo invariant. -/
theorem sfuInv_createPC (m : Sfu) (pid : String) (h : sfuInv m) :
    sfuInv (m.createPC pid) := by
  intro e he t ht
  simp only [Sfu.createPC] at he
  cases hl : lookupPC pid m.peerConns with
  | some ts =>
    rw [hl] at he
    exact h e he t ht
  | none =>
    rw [hl] at he
    simp only [List.mem_append, List.mem_singleton] at he
    rcases he with he | rfl
    · exact h e he t ht
    · cases ht

/-- HandleOffer preserves the no-self-echo invariant: the tracks it adds
to the offering player's connection are exactly the stored tracks of the
other players. -/
theorem sfuInv_handleOffer (m : Sfu) (pid : String) (h : sfuInv m) :
    sfuInv (m.handleOffer pid) := by
  have h1 : sfuInv (m.createPC pid) := sfuInv_createPC m pid h
  intro e he t ht
  simp only [Sfu.handleOffer] at he
  have htoAdd : ∀ t2 ∈
      ((m.createPC pid).audioSrcs.filter (fun src => ¬ src = pid)).map
        (fun src => STrack.mk src .audio) ++
      ((m.createPC pid).videoSrcs.filter (fun src => ¬ src = pid)).map
        (fun src => STrack.mk src .video), t2.source ≠ pid := by
    intro t2 ht2
    simp only [List.mem_append, List.mem_map] at ht2
    rcases ht2 with ⟨src, hsrc, rfl⟩ | ⟨src, hsrc, rfl⟩ <;>
      · have hs := List.of_mem_filter hsrc
        simpa using hs
  rcases mem_addTracks he with he2 | ⟨e0, he0, he0p, rfl⟩
  · exact h1 e he2 t ht
  · simp only at ht ⊢
    rcases List.mem_append.mp ht with ht2 | ht2
    · exact h1 e0 he0 t ht2
    · rw [he0p]
      exact htoAdd t ht2

/-- Track forwarding preserves the no-self-echo invariant: the new local
track is added only to connections of players other than its source. -/
theorem sfuInv_forwardTrack (m : Sfu) (src : String) (kind : MKind) (h : sfuInv m) :
    sfuInv (m.forwardTrack src kind) := by
  intro e he t ht
  have hpc : (m.forwardTrack src kind).peerConns =
      m.peerConns.map (fun e => if e.1 = src then e else (e.1, e.2 ++ [STrack.mk src kind])) := by
    cases kind <;> rfl
  rw [hpc] at he
  simp only [List.mem_map] at he
  obtain ⟨e0, he0, hee⟩ := he
  by_cases hs : e0.1 = src
  · rw [if_pos hs] at hee
    subst hee
    exact h e0 he0 t ht
  · rw [if_neg hs] at hee
    subst hee
    simp only at ht ⊢
    rcases List.mem_append.mp ht with ht2 | ht2
    · exact h e0 he0 t ht2
    · have ht3 := List.mem_singleton.mp ht2
      subst ht3
      exact fun he2 => hs he2.symm

/-- RemovePeerConnection preserves the no-self-echo invariant. -/
theorem sfuInv_removePC (m : Sfu) (pid : String) (h : sfuInv m) :
    sfuInv (m.removePC pid) := by
  intro e he t ht
  exact h e (List.mem_of_mem_filter he) t ht

/-- Every SFU operation preserves the no-self-echo invariant. -/
theorem sfuInv_runSfuOp (m : Sfu) (op : SfuOp) (h : sfuInv m) :
    sfuInv (runSfuOp m op) := by
  cases op with
  | offer pid => exact sfuInv_handleOffer m pid h
  | createPC pid => exact sfuInv_createPC m pid h
  | forward src kind => exact sfuInv_forwardTrack m src kind h
  | removePC pid => exact sfuInv_removePC m pid h

/-- The no-self-echo invariant holds along every operation sequence. -/
theorem sfuInv_runSfu (ops : List SfuOp) (m : Sfu) (h : sfuInv m) :
    sfuInv (runSfu m ops) := by
  induction ops generalizing m with
  | nil => exact h
  | cons op t ih => exact ih (runSfuOp m op) (sfuInv_runSfuOp m op h)

/-- C8: no self-echo.  After any sequence of HandleOffer /
CreatePeerConnection / track-forwarding / RemovePeerConnection
operations from a fresh manager, the peer connection of any player p
contains no sender track whose source is p itself: HandleOffer adds only
other players' stored audio and video tracks, and forwarding adds the
new local track only to connections other than its source player's. -/
theorem no_self_echo (ops : List SfuOp) (pid : String) (ts : List STrack)
    (h : lookupPC pid (runSfu newSfu ops).peerConns = some ts) :
    ∀ t ∈ ts, t.source ≠ pid := by
  have hm : sfuInv (runSfu newSfu ops) :=
    sfuInv_runSfu ops newSfu (by intro e he; simp [newSfu] at he)
  intro t ht
  exact hm (pid, ts) (lookupPC_mem h) t ht

/-- Witness for C8: player a's audio track forwarded into player b's
connection has source a, not b. -/
theorem no_self_echo_witness :
    (STrack.mk "a" MKind.audio).source ≠ "b" :=
  no_self_echo [SfuOp.offer "a", SfuOp.forward "a" MKind.audio, SfuOp.offer "b"]
    "b" [STrack.mk "a" MKind.audio] rfl (STrack.mk "a" MKind.audio) (by decide)

end GameServer
